import Mathlib

/-!
Shallow embedding of the `bitlab` crate (src/lib.rs): extraction and
insertion of arbitrary-width bit ranges from/into fixed-width integers and
byte vectors, MSB-first bit numbering.

Modelling conventions.

* A fixed-width integer of width `w` (u8/i8/u16/i16/u32/i32/u64/i64) is
  represented by its bit pattern, a `Nat` below `2 ^ w`.  Signedness never
  changes the pattern, only its interpretation, which is made explicit by
  `toSigned`.  The signed impls in the source (`impl ... for i8` etc.) cast
  to the unsigned pattern, run the same mask logic, and cast back, with one
  exception: the mask literal of `i64::clear_bit` (src/lib.rs:1778) has
  only 32 binary digits where every other impl uses a literal of exactly
  its width, so the signed clear at width 64 clears 33 bits, not one.  The
  pattern-level definitions therefore come in an unsigned family
  (`clear_bit`) and a signed family (`clear_bit_s`, wrapped by
  `clear_bit_i`), and the scalar inserter takes the container signedness
  to select between them; `get_bit`/`set_bit` masks are full-width in
  every impl, so one pattern-level definition each suffices (wrapped by
  `get_bit_i`/`set_bit_i` for the signed types).
* `u32` index arithmetic is modelled exactly (as `Nat`) in the scalar
  operations and in the `Vec<u8>` extractors: for the inputs the claims are
  about (`offset + length` far below `2 ^ 32`) this agrees with the Rust
  code; at larger inputs the Rust code aborts on an overflow check (debug)
  or wraps (release), which those definitions do not model.  The `Vec<u8>`
  inserter `vecSet` is the one place where a claim's truth depends on the
  wrap-around, so there the `u32` arithmetic is modelled with an explicit
  `% 2 ^ 32` (release semantics) and out-of-bounds vector indexing is a
  distinguished `panic` outcome.
* Errors are an inductive mirroring the `String` messages of the source
  (`OUT_OF_RANGE_MSG`, `LEN_ZERO`, `LEN_TOO_BIG_MSG + type name`, and the
  `ValueTooWide` format string whose payload records the value, the length
  and the computed minimum number of bits).
* The bit-width estimators in the source compute `floor(log2 num) + 1`
  resp. `ceil(log2 |num|) + 1` through `f64`; the definitions here use the
  exact integer logarithm, which is what the crate's documentation and unit
  tests describe and what the `f64` path computes for all magnitudes below
  roughly `2 ^ 48`.  `f64RoundNat` models the well-defined
  round-to-nearest-even `u64 -> f64` cast so that the divergence of the
  `f64` path at large inputs can itself be stated and proved.
-/

namespace Bitlab

/-- `2 ^ 32`, the modulus of Rust `u32` arithmetic. -/
def U32 : Nat := 4294967296

/-- Errors returned by the library, mirroring the `String` messages of the
source: `Out of range`, `The length parameter must not be zero`,
`The length parameter is too big for a <type>` (the type name is dropped),
and `Failed to insert <value> as a <length> bit ... integer variable, since
it requires at least <nRequired> bits.`. -/
inductive Err where
  | outOfRange
  | lenZero
  | lenTooBig
  | valueTooWide (value : Int) (length : Nat) (nRequired : Nat)
  deriving Repr, DecidableEq

/-- Result of a `Vec<u8>` insertion: Rust's `Result<(), String>` extended
with a `panic` outcome for an out-of-bounds vector index (`self[i]` aborts
the process).  `ok` carries the updated byte vector. -/
inductive VResult (α : Type) where
  | panic
  | error (e : Err)
  | ok (val : α)
  deriving Repr, DecidableEq

/-- The source's `type Result<T> = core::result::Result<T, String>`. -/
abbrev BResult (α : Type) := Except Err α

/-- Fuel-indexed binary logarithm: `log2fuel f n` is `⌊log2 n⌋` whenever
`n ≥ 1` needs at most `f` halvings, and is used with `f = 64`, enough for
every value of a 64-bit integer. -/
def log2fuel : Nat → Nat → Nat
  | 0, _ => 0
  | fuel + 1, n => if n ≥ 2 then log2fuel fuel (n / 2) + 1 else 0

/-- `⌊log2 n⌋` for `n` in 64-bit range (and `log2 (2^64)` itself). -/
def natLog2 (n : Nat) : Nat := log2fuel 64 n

/-- `⌈log2 n⌋`-style ceiling logarithm for `n ≥ 2`: `⌈log2 n⌉ = ⌊log2 (n-1)⌋ + 1`. -/
def natClog2 (n : Nat) : Nat := natLog2 (n - 1) + 1

/-- `n_required_bits_for_an_unsigned_int` (src/lib.rs:203): minimum number
of bits to write an unsigned integer; `1` for `num ≤ 1` (where the `f64`
log is not `> 0`), else `⌊log2 num⌋ + 1`.  The source computes the log in
`f64`; see the module docstring. -/
def n_required_bits_for_an_unsigned_int (num : Nat) : Nat :=
  if num ≤ 1 then 1 else natLog2 num + 1

/-- `n_required_bits_for_a_signed_int` (src/lib.rs:214): minimum number of
bits to write a signed integer; `1` for `|num| ≤ 1`, else `⌈log2 |num|⌉ + 1`.
The source computes the log in `f64`; see the module docstring. -/
def n_required_bits_for_a_signed_int (num : Int) : Nat :=
  if num.natAbs ≤ 1 then 1 else natClog2 num.natAbs + 1

/-- Round-to-nearest-even of a natural number to 53 significant bits: the
exact semantics of Rust's `num as f64` cast for `u64` inputs.  Used only to
state how the source's `f64`-based bit-width estimator behaves at large
inputs. -/
def f64RoundNat (n : Nat) : Nat :=
  if n < 2 ^ 53 then n
  else
    let k := natLog2 n - 52
    let q := n / 2 ^ k
    let r := n % 2 ^ k
    if r < 2 ^ (k - 1) then q * 2 ^ k
    else if r > 2 ^ (k - 1) then (q + 1) * 2 ^ k
    else (if q % 2 = 0 then q else q + 1) * 2 ^ k

/-- Two's-complement interpretation of a `w`-bit pattern. -/
def toSigned (w : Nat) (p : Nat) : Int :=
  if p < 2 ^ (w - 1) then (p : Int) else (p : Int) - (2 ^ w : Nat)

/-- Bit pattern (in `w` bits) of an integer value: the effect of every Rust
`as` cast between integer types (truncation, zero-extension of unsigned
values, sign-extension of signed values). -/
def pat (w : Nat) (v : Int) : Nat := (v % ((2 ^ w : Nat) : Int)).toNat

/-- Rust `rotate_right` on a `w`-bit pattern. -/
def rotateRight (w x n : Nat) : Nat :=
  ((x >>> (n % w)) ||| (x <<< (w - n % w))) % 2 ^ w

/-- `SingleBits::get_bit` on a `w`-bit pattern (src/lib.rs:1421 for u8):
fails with `OutOfRange` when `bit_offset > w - 1`; otherwise tests the bit
under the mask `1000...0 >> bit_offset` (MSB-first). -/
def get_bit (w x off : Nat) : BResult Bool :=
  if off > w - 1 then .error .outOfRange
  else if x &&& (2 ^ (w - 1) >>> off) > 0 then .ok true else .ok false

/-- `SingleBits::set_bit` on a `w`-bit pattern (src/lib.rs:1407 for u8):
ORs in the mask `1000...0 >> bit_offset`. -/
def set_bit (w x off : Nat) : BResult Nat :=
  if off > w - 1 then .error .outOfRange
  else .ok (x ||| (2 ^ (w - 1) >>> off))

/-- `SingleBits::clear_bit` of the unsigned impls on a `w`-bit pattern
(src/lib.rs:1439 for u8, and the u16/u32/u64 copies, whose mask literals
all have exactly `w` binary digits): ANDs with `0111...1` rotated right by
`bit_offset`. -/
def clear_bit (w x off : Nat) : BResult Nat :=
  if off > w - 1 then .error .outOfRange
  else .ok (x &&& rotateRight w (2 ^ (w - 1) - 1) off)

/-- The clear mask literal of the signed impls: `0111...1` with exactly
`w` binary digits for i8/i16/i32, but the i64 impl (src/lib.rs:1778)
writes a 32-digit literal — `0x7FFF_FFFF` as u64 — so after the 64-bit
rotation it clears the 33 MSB-first offsets `off .. off + 32 (mod 64)`
instead of the single requested bit. -/
def clearMaskS (w : Nat) : Nat :=
  if w = 64 then 2 ^ 31 - 1 else 2 ^ (w - 1) - 1

/-- `clear_bit` of the signed impls on the bit pattern (`self as uN`,
mask, `as iN` back): identical to the unsigned `clear_bit` at widths
8/16/32, but with the slipped 32-digit mask at width 64. -/
def clear_bit_s (w x off : Nat) : BResult Nat :=
  if off > w - 1 then .error .outOfRange
  else .ok (x &&& rotateRight w (clearMaskS w) off)

/-- `get_bit` of the signed impls (`impl SingleBits for i8` etc., whose
set/get mask literals all have exactly `w` digits): cast to the unsigned
pattern and run the same mask test. -/
def get_bit_i (w : Nat) (x : Int) (off : Nat) : BResult Bool :=
  get_bit w (pat w x) off

/-- `set_bit` of the signed impls: cast to the unsigned pattern, OR the
(correct, `w`-digit) mask in, cast the result back. -/
def set_bit_i (w : Nat) (x : Int) (off : Nat) : BResult Int :=
  (set_bit w (pat w x) off).map (toSigned w)

/-- `clear_bit` of the signed impls: cast to the unsigned pattern, AND
with the rotated signed-impl mask (`clearMaskS` — slipped at width 64),
cast the result back. -/
def clear_bit_i (w : Nat) (x : Int) (off : Nat) : BResult Int :=
  (clear_bit_s w (pat w x) off).map (toSigned w)

/-- The `for i in bit_offset .. bit_offset + length` loop of
`InsertIntoSizedIntegerTypes::set` (src/lib.rs:1845): bit `i` of the
shifted value is copied into bit `i` of the container, one `set_bit` /
`clear_bit` call per position, using the container type Self: `cs` is the
container signedness, selecting the signed impls whose `clear_bit` mask is
slipped at width 64 (`clear_bit_s`).  `cnt` is the number of remaining
iterations. -/
def setLoop (w : Nat) (cs : Bool) (vc : Nat) : Nat → Nat → Nat → BResult Nat
  | res, _, 0 => .ok res
  | res, i, cnt + 1 =>
    match get_bit w vc i with
    | .error e => .error e
    | .ok b =>
      match if b then set_bit w res i
            else if cs then clear_bit_s w res i else clear_bit w res i with
      | .error e => .error e
      | .ok r => setLoop w cs vc r (i + 1) cnt

/-- `InsertIntoSizedIntegerTypes::set` (the `def_set_fn!` macro body,
src/lib.rs:1810): insert a value `v` of signedness `tsigned` into the low
`len`-bit window at MSB-first `off` of a container pattern `c` of width
`w` and signedness `cs` (the loop calls `set_bit`/`clear_bit` of the
container type Self, so signed 64-bit containers go through the slipped
`i64::clear_bit` mask).  Checks, in source order: `length` too big for the
container, `length == 0`, `offset + length` beyond the container, and the
minimum-bit-width check for `v` by its own signedness.  Then the value is
cast to the container width (`value.as_()`), left-shifted by
`w - (offset + length)`, and spliced in bit by bit. -/
def scalarSet (w c off len : Nat) (cs tsigned : Bool) (v : Int) : BResult Nat :=
  if len > w then .error .lenTooBig
  else if len = 0 then .error .lenZero
  else if off + len > w then .error .outOfRange
  else
    let n := if tsigned then n_required_bits_for_a_signed_int v
             else n_required_bits_for_an_unsigned_int v.toNat
    if n > len then .error (.valueTooWide v len n)
    else
      let vc := (pat w v <<< (w - (off + len))) % 2 ^ w
      setLoop w cs vc c off len

/-- Same-width unsigned scalar extraction
(`ExtractBitsFromIntegralTypes::get_u8` for `u8`, src/lib.rs:296, and its
u16/u32/u64 copies): `check_range!`, then `copy <<= offset` and
`copy >>= w - length` with logical shifts. -/
def scalarGetU (w c off len : Nat) : BResult Nat :=
  if len = 0 then .error .lenZero
  else if off + len > w then .error .outOfRange
  else .ok (((c <<< off) % 2 ^ w) >>> (w - len))

/-- Same-width signed scalar extraction (`get_i8` for `u8`, src/lib.rs:313,
and its copies): the copy is reinterpreted as signed, shifted left by
`offset` (bits dropped), then arithmetic-shifted right by `w - length`,
i.e. floor-divided by `2 ^ (w - len)`. -/
def scalarGetI (w c off len : Nat) : BResult Int :=
  if len = 0 then .error .lenZero
  else if off + len > w then .error .outOfRange
  else .ok (Int.fdiv (toSigned w ((c <<< off) % 2 ^ w)) ((2 ^ (w - len) : Nat) : Int))

/-- Unsigned extraction from a `sw`-bit source into a `tw`-bit target
(`impl ExtractBitsFromIntegralTypes`, all width combinations): a narrower
target first rejects `length > tw` with `LengthTooBigForTargetType`, then
truncates the same-width result (`as u8` etc.); an equal or wider target
zero-extends it (the identity on patterns-as-Nat). -/
def scalarGetUT (sw tw c off len : Nat) : BResult Nat :=
  if tw < sw then
    if len > tw then .error .lenTooBig
    else (scalarGetU sw c off len).map (· % 2 ^ tw)
  else scalarGetU sw c off len

/-- Signed extraction from a `sw`-bit source into a `tw`-bit target: a
narrower target first rejects `length > tw`, then truncates the same-width
signed result (`as i8` etc.); an equal or wider target sign-extends it,
which preserves the integer value. -/
def scalarGetIT (sw tw c off len : Nat) : BResult Int :=
  if tw < sw then
    if len > tw then .error .lenTooBig
    else (scalarGetI sw c off len).map (fun r => toSigned tw (pat tw r))
  else scalarGetI sw c off len

/-- `ExtractBitsFromVecU8::get_u8` for `Vec<u8>` (src/lib.rs:838).  The
byte/bit offset is first normalized (`byte_offset += bit_offset / 8`,
`bit_offset -= (bit_offset / 8) * 8`); a range of bits within one byte is
shifted out of a `u8`, a range spanning two bytes out of a `u16` whose
result is truncated `as u8`.  List elements stand for bytes (`< 256`). -/
def vecGetU8 (bs : List Nat) (byteOff bitOff len : Nat) : BResult Nat :=
  if len = 0 then .error .lenZero
  else if len ≤ 8 then
    if byteOff * 8 + bitOff + len ≤ bs.length * 8 then
      let bo := byteOff + bitOff / 8
      let bi := bitOff - bitOff / 8 * 8
      if bi + len ≤ 8 then
        .ok (((bs.getD bo 0 <<< bi) % 2 ^ 8) >>> (8 - len))
      else
        .ok (((((((bs.getD bo 0 <<< 8) % 2 ^ 16) ||| bs.getD (bo + 1) 0) <<< bi) % 2 ^ 16)
              >>> (16 - len)) % 2 ^ 8)
    else .error .outOfRange
  else .error .outOfRange

/-- `ExtractBitsFromVecU8::get_u16` for `Vec<u8>` (src/lib.rs:942), with
its three branches: the one-byte branch goes through `as i8` / `as i16`
(sign-extension, modelled on the pattern) before the `u16` shifts, the
two-byte branch assembles a `u16`, the three-byte branch assembles a `u32`
shifted by `bit_offset + 8` and truncates the result `as u16`. -/
def vecGetU16 (bs : List Nat) (byteOff bitOff len : Nat) : BResult Nat :=
  if len = 0 then .error .lenZero
  else if len ≤ 16 then
    if byteOff * 8 + bitOff + len ≤ bs.length * 8 then
      let bo := byteOff + bitOff / 8
      let bi := bitOff - bitOff / 8 * 8
      if bi + len ≤ 8 then
        let c2 := if bs.getD bo 0 < 2 ^ 7 then bs.getD bo 0 else bs.getD bo 0 + 65280
        .ok (((c2 <<< (8 + bi)) % 2 ^ 16) >>> (16 - len))
      else if bi + len ≤ 16 then
        .ok ((((((bs.getD bo 0 <<< 8) % 2 ^ 16) ||| bs.getD (bo + 1) 0) <<< bi) % 2 ^ 16)
              >>> (16 - len))
      else
        .ok ((((((((bs.getD bo 0 <<< 16) % 2 ^ 32) ||| ((bs.getD (bo + 1) 0 <<< 8) % 2 ^ 32)
                ||| bs.getD (bo + 2) 0) <<< (bi + 8)) % 2 ^ 32)
              >>> (32 - len)) % 2 ^ 16))
    else .error .outOfRange
  else .error .outOfRange

/-- Wrapping `u32` subtraction `a - b` for `b ≤ 2 ^ 32` (release-mode
semantics of the source's `u32` subtractions). -/
def sub32 (a b : Nat) : Nat := (a + (U32 - b % U32)) % U32

/-- MSB-first bit `p` of a byte vector: bit `7 - p % 8` of byte `p / 8`. -/
def bitAt (bs : List Nat) (p : Nat) : Bool :=
  (bs.getD (p / 8) 0).testBit (7 - p % 8)

/-- The inner `while bit_counter > 0` loop of `InsertBitsIntoVecU8::set`
(src/lib.rs:1929): copies bits of the value (of width `tw`, pattern `vpat`)
into one byte `copy`, reading at `readIdx`, writing at `writeIdx`, until
the counter runs out or a byte boundary is crossed (`break`, resetting the
write index to 0).  Returns the new byte and the updated indices/counter. -/
def vecSetInner (tw vpat : Nat) : Nat → Nat → Nat → Nat → BResult (Nat × Nat × Nat × Nat)
  | copy, readIdx, writeIdx, 0 => .ok (copy, readIdx, writeIdx, 0)
  | copy, readIdx, writeIdx, cnt + 1 =>
    match get_bit tw vpat readIdx with
    | .error e => .error e
    | .ok b =>
      match if b then set_bit 8 copy writeIdx else clear_bit 8 copy writeIdx with
      | .error e => .error e
      | .ok copy2 =>
        if (writeIdx + 1) % 8 = 0 then .ok (copy2, readIdx + 1, 0, cnt)
        else vecSetInner tw vpat copy2 (readIdx + 1) (writeIdx + 1) cnt

/-- The outer `for byte_index in first .. last + 1` loop of
`InsertBitsIntoVecU8::set`: reads a byte (a `panic` if the index is out of
bounds), runs the inner loop on it, writes it back.  `fuel` is the number
of remaining byte indices of the range. -/
def vecSetBytes (tw vpat : Nat) :
    List Nat → Nat → Nat → Nat → Nat → Nat → VResult (List Nat)
  | bs, _, _, _, _, 0 => .ok bs
  | bs, readIdx, writeIdx, cnt, byteIdx, fuel + 1 =>
    if byteIdx < bs.length then
      match vecSetInner tw vpat (bs.getD byteIdx 0) readIdx writeIdx cnt with
      | .error e => .error e
      | .ok (copy2, r2, w2, cnt2) =>
        vecSetBytes tw vpat (bs.set byteIdx copy2) r2 w2 cnt2 (byteIdx + 1) fuel
    else .panic

/-- `InsertBitsIntoVecU8::set` for `Vec<u8>` (src/lib.rs:1887): insert the
low `length` bits of a value `v` (of signedness `tsigned` and type width
`tw`) into the byte vector at `byte_offset` / `bit_offset`.  The `u32`
range-check arithmetic and the `size_of::<T>()*8 - length` read index are
modelled with release-mode wrap-around (`% 2 ^ 32`); an out-of-bounds
vector index is `panic`.  On `Err` the Rust function leaves the vector
partially updated; the model returns only the error (the single mid-loop
error source, `value.get_bit`, can only fail on the very first bit, before
any write). -/
def vecSet (bs : List Nat) (byteOff bitOff len : Nat) (tsigned : Bool) (tw : Nat)
    (v : Int) : VResult (List Nat) :=
  if len = 0 then .error .lenZero
  else if (byteOff * 8 + bitOff + len) % U32 > bs.length % U32 * 8 % U32 then
    .error .outOfRange
  else
    let n := if tsigned then n_required_bits_for_a_signed_int v
             else n_required_bits_for_an_unsigned_int v.toNat
    if n > len then .error (.valueTooWide v len n)
    else
      let first := (byteOff + bitOff / 8) % U32
      let last := (byteOff + sub32 (bitOff + len) 1 / 8) % U32
      vecSetBytes tw (pat tw v) bs (sub32 tw len) (bitOff % 8) len first
        ((last + 1) % U32 - first)

theorem two_pow_shiftRight {a b : Nat} (h : b ≤ a) : (2 ^ a) >>> b = 2 ^ (a - b) := by
  rw [Nat.shiftRight_eq_div_pow, Nat.pow_div h (by norm_num)]

theorem get_bit_eq (w x off : Nat) (h : off < w) :
    get_bit w x off = .ok (x.testBit (w - 1 - off)) := by
  unfold get_bit
  rw [if_neg (by omega), two_pow_shiftRight (by omega), Nat.and_two_pow]
  cases hb : x.testBit (w - 1 - off) <;> simp [hb, Nat.pos_pow_of_pos]

theorem get_bit_err (w x off : Nat) (h : w ≤ off) (hw : 0 < w) :
    get_bit w x off = .error .outOfRange := by
  unfold get_bit
  rw [if_pos (by omega)]

theorem set_bit_eq (w x off : Nat) (h : off < w) :
    set_bit w x off = .ok (x ||| 2 ^ (w - 1 - off)) := by
  unfold set_bit
  rw [if_neg (by omega), two_pow_shiftRight (by omega)]

theorem set_bit_err (w x off : Nat) (h : w ≤ off) (hw : 0 < w) :
    set_bit w x off = .error .outOfRange := by
  unfold set_bit
  rw [if_pos (by omega)]

theorem testBit_fullmask_xor (w k j : Nat) (hk : k < w) :
    ((2 ^ w - 1) ^^^ 2 ^ k).testBit j = (decide (j < w) && !decide (k = j)) := by
  rw [Nat.testBit_xor, Nat.testBit_two_pow_sub_one, Nat.testBit_two_pow]
  rcases Nat.lt_or_ge j w with h | h
  · by_cases he : k = j <;> simp [he, h]
  · have h1 : ¬(k = j) := by omega
    have h2 : ¬(j < w) := by omega
    simp [h1, h2]

theorem rotate_mask (w off : Nat) (h : off < w) :
    rotateRight w (2 ^ (w - 1) - 1) off = (2 ^ w - 1) ^^^ 2 ^ (w - 1 - off) := by
  apply Nat.eq_of_testBit_eq
  intro j
  have hm : off % w = off := Nat.mod_eq_of_lt h
  rw [testBit_fullmask_xor w _ j (by omega), Bool.eq_iff_iff]
  simp only [rotateRight, hm, Nat.testBit_mod_two_pow, Nat.testBit_or, Nat.testBit_shiftRight,
    Nat.testBit_shiftLeft, Nat.testBit_two_pow_sub_one, Bool.and_eq_true, Bool.or_eq_true,
    decide_eq_true_eq, Bool.not_eq_true', decide_eq_false_iff_not, ge_iff_le]
  omega

theorem clear_bit_eq (w x off : Nat) (h : off < w) :
    clear_bit w x off = .ok (x &&& ((2 ^ w - 1) ^^^ 2 ^ (w - 1 - off))) := by
  unfold clear_bit
  rw [if_neg (by omega), rotate_mask w off h]

theorem clear_bit_err (w x off : Nat) (h : w ≤ off) (hw : 0 < w) :
    clear_bit w x off = .error .outOfRange := by
  unfold clear_bit
  rw [if_pos (by omega)]

theorem clear_bit_s_eq_clear_bit (w x off : Nat) (h : w ≠ 64) :
    clear_bit_s w x off = clear_bit w x off := by
  unfold clear_bit_s clear_bit clearMaskS
  rw [if_neg h]

theorem clear_bit_s_err (w x off : Nat) (h : w ≤ off) (hw : 0 < w) :
    clear_bit_s w x off = .error .outOfRange := by
  unfold clear_bit_s
  rw [if_pos (by omega)]

theorem rotate_mask32_self (off : Nat) (h : off < 64) :
    (rotateRight 64 (2 ^ 31 - 1) off).testBit (64 - 1 - off) = false := by
  have hm : off % 64 = off := Nat.mod_eq_of_lt h
  rw [← Bool.not_eq_true]
  simp only [rotateRight, hm, Nat.testBit_mod_two_pow, Nat.testBit_or, Nat.testBit_shiftRight,
    Nat.testBit_shiftLeft, Nat.testBit_two_pow_sub_one, Bool.and_eq_true, Bool.or_eq_true,
    decide_eq_true_eq, ge_iff_le]
  omega

theorem testBit_setMask (w x off j : Nat) :
    (x ||| 2 ^ (w - 1 - off)).testBit j = (x.testBit j || decide (w - 1 - off = j)) := by
  simp [Nat.testBit_or, Nat.testBit_two_pow]

theorem testBit_clearMask (w x off j : Nat) (h : off < w) :
    (x &&& ((2 ^ w - 1) ^^^ 2 ^ (w - 1 - off))).testBit j =
      (x.testBit j && (decide (j < w) && !decide (w - 1 - off = j))) := by
  rw [Nat.testBit_and, testBit_fullmask_xor w _ j (by omega)]

theorem setLoop_ok (w : Nat) (cs : Bool) (vc : Nat) (hgood : cs = true → w ≠ 64) :
    ∀ cnt i res, i + cnt ≤ w → res < 2 ^ w →
    ∃ r, setLoop w cs vc res i cnt = .ok r ∧ r < 2 ^ w ∧
      ∀ j, r.testBit j =
        if i + j + 1 ≤ w ∧ w ≤ i + cnt + j then vc.testBit j else res.testBit j := by
  intro cnt
  induction cnt with
  | zero =>
    intro i res _ hres
    refine ⟨res, rfl, hres, fun j => ?_⟩
    rw [if_neg (by omega)]
  | succ cnt ih =>
    intro i res hle hres
    have hi : i < w := by omega
    rw [setLoop, get_bit_eq w vc i hi]
    cases hb : vc.testBit (w - 1 - i) with
    | true =>
      rw [set_bit_eq w res i hi]
      have hres1 : res ||| 2 ^ (w - 1 - i) < 2 ^ w :=
        Nat.or_lt_two_pow hres (Nat.pow_lt_pow_right (by norm_num) (by omega))
      obtain ⟨r, hr, hrlt, hchar⟩ := ih (i + 1) (res ||| 2 ^ (w - 1 - i)) (by omega) hres1
      refine ⟨r, ?_, hrlt, fun j => ?_⟩
      · simpa using hr
      · rw [hchar j, testBit_setMask]
        by_cases hcase : i + 1 + j + 1 ≤ w ∧ w ≤ i + 1 + cnt + j
        · rw [if_pos hcase, if_pos (by omega)]
        · rw [if_neg hcase]
          by_cases heq : w - 1 - i = j
          · rw [if_pos (by omega)]
            have hj : j = w - 1 - i := heq.symm
            subst hj
            simp [hb]
          · rw [if_neg (by omega)]
            simp [heq]
    | false =>
      have hsel : (if cs then clear_bit_s w res i else clear_bit w res i)
          = clear_bit w res i := by
        cases cs
        · rfl
        · rw [if_pos rfl, clear_bit_s_eq_clear_bit w res i (hgood rfl)]
      rw [hsel, clear_bit_eq w res i hi]
      have hres1 : res &&& ((2 ^ w - 1) ^^^ 2 ^ (w - 1 - i)) < 2 ^ w :=
        Nat.lt_of_le_of_lt Nat.and_le_left hres
      obtain ⟨r, hr, hrlt, hchar⟩ := ih (i + 1) _ (by omega) hres1
      refine ⟨r, ?_, hrlt, fun j => ?_⟩
      · simpa using hr
      · rw [hchar j, testBit_clearMask w res i j hi]
        by_cases hcase : i + 1 + j + 1 ≤ w ∧ w ≤ i + 1 + cnt + j
        · rw [if_pos hcase, if_pos (by omega)]
        · rw [if_neg hcase]
          by_cases heq : w - 1 - i = j
          · rw [if_pos (by omega)]
            have hj : j = w - 1 - i := heq.symm
            subst hj
            simp [hb, heq]
          · rw [if_neg (by omega)]
            by_cases hjw : j < w
            · simp [heq, hjw]
            · have hz : res.testBit j = false :=
                Nat.testBit_lt_two_pow (Nat.lt_of_lt_of_le hres (Nat.pow_le_pow_right (by norm_num) (by omega)))
              simp [hz]

theorem pat_lt (w : Nat) (v : Int) : pat w v < 2 ^ w := by
  unfold pat
  have h2 : (0:Int) < ((2 ^ w : Nat) : Int) := by exact_mod_cast Nat.two_pow_pos w
  have h3 := Int.emod_lt_of_pos v h2
  have h4 := Int.emod_nonneg v (by omega : ((2 ^ w : Nat) : Int) ≠ 0)
  omega

theorem pat_int (w : Nat) (v : Int) :
    ((pat w v : Nat) : Int) = v % ((2 ^ w : Nat) : Int) := by
  unfold pat
  exact Int.toNat_of_nonneg
    (Int.emod_nonneg v (by exact_mod_cast (Nat.two_pow_pos w).ne'))

theorem pat_mod {w len : Nat} (v : Int) (h : len ≤ w) : pat w v % 2 ^ len = pat len v := by
  have hd : ((2:Int) ^ len) ∣ ((2:Int) ^ w) := pow_dvd_pow 2 h
  refine Int.natCast_inj.mp ?_
  push_cast
  rw [pat_int, pat_int]
  push_cast
  exact Int.emod_emod_of_dvd v hd

theorem toSigned_emod (len p : Nat) (hp : p < 2 ^ len) :
    (toSigned len p) % ((2 ^ len : Nat) : Int) = ((p : Nat) : Int) := by
  unfold toSigned
  have hple : ((p : Nat) : Int) < ((2 ^ len : Nat) : Int) := by exact_mod_cast hp
  by_cases h : p < 2 ^ (len - 1)
  · rw [if_pos h]
    exact Int.emod_eq_of_lt (by positivity) hple
  · rw [if_neg h]
    have he : ((p : Nat) : Int) - ((2 ^ len : Nat) : Int)
        = ((p : Nat) : Int) + (-1) * ((2 ^ len : Nat) : Int) := by ring
    rw [he, Int.add_mul_emod_self]
    exact Int.emod_eq_of_lt (by positivity) hple

theorem shift_window (w c off len : Nat) (h : off + len ≤ w) :
    ((c <<< off) % 2 ^ w) >>> (w - len) = (c / 2 ^ (w - off - len)) % 2 ^ len := by
  rw [← Nat.shiftRight_eq_div_pow]
  apply Nat.eq_of_testBit_eq
  intro k
  rw [Bool.eq_iff_iff]
  simp only [Nat.testBit_shiftRight, Nat.testBit_mod_two_pow, Nat.testBit_shiftLeft,
    Bool.and_eq_true, decide_eq_true_eq, ge_iff_le]
  constructor
  · rintro ⟨h1, h2, h3⟩
    refine ⟨by omega, ?_⟩
    have he : w - off - len + k = w - len + k - off := by omega
    rw [he]; exact h3
  · rintro ⟨h1, h2⟩
    refine ⟨by omega, by omega, ?_⟩
    have he : w - len + k - off = w - off - len + k := by omega
    rw [he]; exact h2

theorem scalarGetU_val (w c off len : Nat) (h1 : 1 ≤ len) (h2 : off + len ≤ w) :
    scalarGetU w c off len = .ok ((c / 2 ^ (w - off - len)) % 2 ^ len) := by
  unfold scalarGetU
  rw [if_neg (by omega), if_neg (by omega), shift_window w c off len h2]

theorem scalarGetI_val (w c off len : Nat) (h1 : 1 ≤ len) (h2 : off + len ≤ w) :
    scalarGetI w c off len = .ok (toSigned len ((c / 2 ^ (w - off - len)) % 2 ^ len)) := by
  unfold scalarGetI
  rw [if_neg (by omega), if_neg (by omega)]
  congr 1
  have hPlt : (c <<< off) % 2 ^ w < 2 ^ w := Nat.mod_lt _ (Nat.two_pow_pos w)
  have hU : ((c <<< off) % 2 ^ w) >>> (w - len) = (c / 2 ^ (w - off - len)) % 2 ^ len :=
    shift_window w c off len h2
  have hUP : (c / 2 ^ (w - off - len)) % 2 ^ len = ((c <<< off) % 2 ^ w) / 2 ^ (w - len) := by
    rw [← hU, Nat.shiftRight_eq_div_pow]
  set P := (c <<< off) % 2 ^ w with hPdef
  set U := (c / 2 ^ (w - off - len)) % 2 ^ len with hUdef
  have hq : (0:Int) < ((2 ^ (w - len) : Nat) : Int) := by exact_mod_cast Nat.two_pow_pos _
  rw [Int.fdiv_eq_ediv _ (le_of_lt hq)]
  unfold toSigned
  have hpow1 : 2 ^ (len - 1) * 2 ^ (w - len) = 2 ^ (w - 1) := by
    rw [← pow_add]
    have he : len - 1 + (w - len) = w - 1 := by omega
    rw [he]
  by_cases htop : P < 2 ^ (w - 1)
  · rw [if_pos htop]
    have hUtop : U < 2 ^ (len - 1) := by
      rw [hUP]
      apply Nat.div_lt_of_lt_mul
      rw [Nat.mul_comm, hpow1]
      exact htop
    rw [if_pos hUtop, hUP]
    exact_mod_cast (Int.ofNat_ediv P (2 ^ (w - len))).symm
  · rw [if_neg htop]
    have hUtop : ¬ U < 2 ^ (len - 1) := by
      rw [hUP]
      intro hcon
      apply htop
      have hlt := (Nat.div_lt_iff_lt_mul (Nat.two_pow_pos (w - len))).mp hcon
      rw [hpow1] at hlt
      exact hlt
    rw [if_neg hUtop]
    have hsplit : ((P : Nat) : Int) - ((2 ^ w : Nat) : Int)
        = ((P : Nat) : Int) + (-((2 ^ len : Nat) : Int)) * ((2 ^ (w - len) : Nat) : Int) := by
      have hpow : (2 : Nat) ^ w = 2 ^ len * 2 ^ (w - len) := by
        rw [← pow_add]
        have he : len + (w - len) = w := by omega
        rw [he]
      push_cast [hpow]
      ring
    rw [hsplit, Int.add_mul_ediv_right _ _ (by omega), hUP]
    have hc : ((P / 2 ^ (w - len) : Nat) : Int) = ((P : Nat) : Int) / ((2 ^ (w - len) : Nat) : Int) :=
      Int.ofNat_ediv P (2 ^ (w - len))
    push_cast
    push_cast at hc
    rw [← hc]
    ring

/-- C1 (code-bug evidence).  The round trip fails for signed 64-bit
containers: inserting the value `i64::MIN` (bit pattern `2 ^ 63`, which
the bit-width estimator admits at length 64: it needs exactly 64 bits)
into the i64 container 0 at offset 0, length 64 returns the container 0,
because the splice loop calls `i64::clear_bit`, whose slipped 32-digit
mask (src/lib.rs:1778) clears offsets `i .. i + 32 (mod 64)`: the clear at
iteration 32 wraps around and wipes the span bit written at offset 0.
Extracting the span then yields 0, not the low 64 bits of the value
(pattern `2 ^ 63`), so insert-then-extract loses the value. -/
theorem c1_i64_round_trip_failure :
    n_required_bits_for_a_signed_int (-(2 ^ 63)) = 64 ∧
    scalarSet 64 0 0 64 true true (-(2 ^ 63)) = .ok 0 ∧
    scalarGetI 64 0 0 64 = .ok 0 ∧
    pat 64 (-(2 ^ 63)) = 2 ^ 63 ∧ (0 : Nat) ≠ 2 ^ 63 := by
  refine ⟨rfl, rfl, rfl, rfl, by norm_num⟩

theorem vecSetInner_ok (tw vpat : Nat) : ∀ cnt copy readIdx writeIdx out,
    writeIdx < 8 →
    vecSetInner tw vpat copy readIdx writeIdx cnt = .ok out →
    ∃ k, k ≤ cnt ∧ writeIdx + k ≤ 8 ∧ out.2.2.2 = cnt - k ∧ out.2.2.1 < 8 ∧
      (cnt - k ≠ 0 → writeIdx + k = 8 ∧ out.2.2.1 = 0) ∧
      ∀ j, j < 8 → ¬(j + writeIdx ≤ 7 ∧ 7 < j + writeIdx + k) →
        (out.1).testBit j = copy.testBit j := by
  intro cnt
  induction cnt with
  | zero =>
    intro copy readIdx writeIdx out hwi h
    rw [vecSetInner] at h
    have hout : out = (copy, readIdx, writeIdx, 0) := (Except.ok.inj h).symm
    subst hout
    exact ⟨0, by omega, by omega, rfl, hwi, by omega, fun j _ _ => rfl⟩
  | succ cnt ih =>
    intro copy readIdx writeIdx out hwi h
    rw [vecSetInner] at h
    cases hg : get_bit tw vpat readIdx with
    | error e =>
      rw [hg] at h
      dsimp only at h
      exact absurd h (by simp)
    | ok b =>
      rw [hg] at h
      cases b with
      | true =>
        rw [set_bit_eq 8 copy writeIdx (by omega)] at h
        dsimp only at h
        rw [if_pos rfl] at h
        dsimp only at h
        by_cases hb8 : (writeIdx + 1) % 8 = 0
        · rw [if_pos hb8] at h
          have hout : out = (copy ||| 2 ^ (8 - 1 - writeIdx), readIdx + 1, 0, cnt) :=
            (Except.ok.inj h).symm
          subst hout
          refine ⟨1, by omega, by omega, rfl, by dsimp only; omega, fun _ => ⟨by omega, rfl⟩, ?_⟩
          intro j hj hun
          rw [testBit_setMask]
          have hne : ¬(8 - 1 - writeIdx = j) := by omega
          simp [hne]
        · rw [if_neg hb8] at h
          obtain ⟨k, hk, hwk, hcnt, hwlt, hnz, hun⟩ :=
            ih (copy ||| 2 ^ (8 - 1 - writeIdx)) (readIdx + 1) (writeIdx + 1) out (by omega) h
          refine ⟨k + 1, by omega, by omega, by omega, hwlt, ?_, ?_⟩
          · intro hcz
            obtain ⟨ha, hbz⟩ := hnz (by omega)
            exact ⟨by omega, hbz⟩
          · intro j hj hunj
            rw [hun j hj (by omega), testBit_setMask]
            have hne : ¬(8 - 1 - writeIdx = j) := by omega
            simp [hne]
      | false =>
        rw [clear_bit_eq 8 copy writeIdx (by omega)] at h
        dsimp only at h
        rw [if_neg Bool.false_ne_true] at h
        dsimp only at h
        by_cases hb8 : (writeIdx + 1) % 8 = 0
        · rw [if_pos hb8] at h
          have hout : out = (copy &&& ((2 ^ 8 - 1) ^^^ 2 ^ (8 - 1 - writeIdx)), readIdx + 1, 0, cnt) :=
            (Except.ok.inj h).symm
          subst hout
          refine ⟨1, by omega, by omega, rfl, by dsimp only; omega, fun _ => ⟨by omega, rfl⟩, ?_⟩
          intro j hj hun
          rw [testBit_clearMask 8 copy writeIdx j (by omega)]
          have hne : ¬(8 - 1 - writeIdx = j) := by omega
          simp [hne, hj]
        · rw [if_neg hb8] at h
          obtain ⟨k, hk, hwk, hcnt, hwlt, hnz, hun⟩ :=
            ih (copy &&& ((2 ^ 8 - 1) ^^^ 2 ^ (8 - 1 - writeIdx))) (readIdx + 1) (writeIdx + 1) out (by omega) h
          refine ⟨k + 1, by omega, by omega, by omega, hwlt, ?_, ?_⟩
          · intro hcz
            obtain ⟨ha, hbz⟩ := hnz (by omega)
            exact ⟨by omega, hbz⟩
          · intro j hj hunj
            rw [hun j hj (by omega), testBit_clearMask 8 copy writeIdx j (by omega)]
            have hne : ¬(8 - 1 - writeIdx = j) := by omega
            simp [hne, hj]

theorem bitAt_set_ne (bs : List Nat) (i : Nat) (c : Nat) (p : Nat) (h : p / 8 ≠ i) :
    bitAt (bs.set i c) p = bitAt bs p := by
  unfold bitAt
  rw [List.getD_eq_getElem?_getD, List.getD_eq_getElem?_getD,
    List.getElem?_set_ne (by omega)]

theorem bitAt_set_self (bs : List Nat) (i : Nat) (c : Nat) (p : Nat)
    (h : p / 8 = i) (hi : i < bs.length) :
    bitAt (bs.set i c) p = c.testBit (7 - p % 8) := by
  unfold bitAt
  rw [h, List.getD_eq_getElem?_getD, List.getElem?_set_self hi]
  rfl

theorem vecSetBytes_untouched (tw vpat : Nat) : ∀ fuel bs readIdx writeIdx cnt byteIdx bs2,
    writeIdx < 8 →
    vecSetBytes tw vpat bs readIdx writeIdx cnt byteIdx fuel = .ok bs2 →
    ∀ p, p < byteIdx * 8 + writeIdx ∨ byteIdx * 8 + writeIdx + cnt ≤ p →
      bitAt bs2 p = bitAt bs p := by
  intro fuel
  induction fuel with
  | zero =>
    intro bs readIdx writeIdx cnt byteIdx bs2 hwi h p hp
    rw [vecSetBytes] at h
    rw [(VResult.ok.inj h).symm]
  | succ fuel ih =>
    intro bs readIdx writeIdx cnt byteIdx bs2 hwi h p hp
    rw [vecSetBytes] at h
    by_cases hb : byteIdx < bs.length
    · rw [if_pos hb] at h
      cases hin : vecSetInner tw vpat (bs.getD byteIdx 0) readIdx writeIdx cnt with
      | error e => rw [hin] at h; exact absurd h (by simp)
      | ok out =>
        rw [hin] at h
        obtain ⟨k, hk, hwk, hcnt, hwlt, hnz, hun⟩ :=
          vecSetInner_ok tw vpat cnt (bs.getD byteIdx 0) readIdx writeIdx out hwi hin
        have hnext : p < (byteIdx + 1) * 8 + out.2.2.1 ∨ (byteIdx + 1) * 8 + out.2.2.1 + out.2.2.2 ≤ p := by
          by_cases hz : cnt - k = 0
          · rcases Nat.lt_or_ge p ((byteIdx + 1) * 8 + out.2.2.1) with hlt | hge
            · exact Or.inl hlt
            · exact Or.inr (by omega)
          · obtain ⟨h8, hw0⟩ := hnz hz
            rw [hw0, hcnt]
            omega
        have hstep := ih (bs.set byteIdx out.1) out.2.1 out.2.2.1 out.2.2.2 (byteIdx + 1) bs2 hwlt h p hnext
        rw [hstep]
        by_cases hpb : p / 8 = byteIdx
        · rw [bitAt_set_self bs byteIdx out.1 p hpb hb]
          unfold bitAt
          rw [hpb]
          apply hun (7 - p % 8) (by omega)
          have hmod : p % 8 < 8 := Nat.mod_lt _ (by norm_num)
          have hpdecomp : p = 8 * byteIdx + p % 8 := by omega
          omega
        · exact bitAt_set_ne bs byteIdx out.1 p hpb
    · rw [if_neg hb] at h
      exact absurd h (by simp)

/-- C2 (amended).  Non-interference: a successful scalar insert leaves
every bit outside the MSB-first span `[off, off + len)` unchanged for
every unsigned container and for signed containers of width 8/16/32; for
signed 64-bit containers the property fails, because `i64::clear_bit`
(src/lib.rs:1778) uses a slipped 32-digit mask that clears bits outside
the span (see the counterexample).  A successful buffer insert leaves
every bit outside the absolute bit range `[byte_offset*8 + bit_offset,
byte_offset*8 + bit_offset + length)` unchanged, provided the `u32`
range-check arithmetic `byte_offset*8 + bit_offset + length` does not
overflow (with overflow the release-mode check can pass with wrapped byte
indices and a bit outside the claimed span is overwritten, see the
counterexample). -/
theorem c2_non_interference :
    (∀ w c off len cs tsigned v c2, c < 2 ^ w → (cs = true → w ≠ 64) →
      scalarSet w c off len cs tsigned v = .ok c2 →
      ∀ m, m < off ∨ off + len ≤ m → get_bit w c2 m = get_bit w c m) ∧
    (∀ bs byteOff bitOff len tsigned tw v bs2,
      byteOff * 8 + bitOff + len < U32 → bs.length * 8 < U32 →
      vecSet bs byteOff bitOff len tsigned tw v = .ok bs2 →
      ∀ p, p < byteOff * 8 + bitOff ∨ byteOff * 8 + bitOff + len ≤ p →
        bitAt bs2 p = bitAt bs p) := by
  constructor
  · intro w c off len cs tsigned v c2 hc hgood hok m hm
    unfold scalarSet at hok
    dsimp only at hok
    split_ifs at hok with h1 h2 h3 h4 <;> try (exact Except.noConfusion hok)
    all_goals (
      obtain ⟨r, hr, hrlt, hchar⟩ := setLoop_ok w cs _ hgood len off c (by omega) hc
      rw [hr] at hok
      have hc2 := Except.ok.inj hok
      subst hc2
      rcases Nat.lt_or_ge m w with hmw | hmw
      · rw [get_bit_eq w _ m hmw, get_bit_eq w c m hmw]
        rw [hchar (w - 1 - m), if_neg (by omega)]
      · rw [get_bit_err w _ m hmw (by omega), get_bit_err w c m hmw (by omega)])
  · intro bs byteOff bitOff len tsigned tw v bs2 hno hlen8 hok p hp
    have hU : U32 = 4294967296 := rfl
    unfold vecSet at hok
    dsimp only at hok
    split_ifs at hok with h1 h2 h3 <;> try (exact VResult.noConfusion hok)
    all_goals (
      have hfirst : (byteOff + bitOff / 8) % U32 = byteOff + bitOff / 8 := by
        apply Nat.mod_eq_of_lt
        omega
      rw [hfirst] at hok
      have huntouch := vecSetBytes_untouched tw (pat tw v) _ bs (sub32 tw len) (bitOff % 8) len
        (byteOff + bitOff / 8) bs2 (Nat.mod_lt _ (by norm_num)) hok
      have hregion : p < (byteOff + bitOff / 8) * 8 + bitOff % 8 ∨
          (byteOff + bitOff / 8) * 8 + bitOff % 8 + len ≤ p := by omega
      exact huntouch p hregion)

/-- C2 counterexample.  The claim as stated fails on the code in two ways.
Buffer: with `byte_offset = u32::MAX` and `bit_offset = 8`, the
release-mode `u32` range check wraps around
(`u32::MAX * 8 + 8 + 1 ≡ 1 (mod 2^32)`), the insert succeeds, and it
clears the most significant bit of byte 0 — far outside the claimed
absolute range, which starts at bit `u32::MAX * 8 + 8`.  Scalar:
inserting the 1-bit value 0 at offset 0 into the i64 container `-1`
(pattern `2^64 - 1`) returns pattern `2^31 - 1`: the slipped
`i64::clear_bit` mask also cleared offsets 1..32, all outside the span
`[0, 1)` — the bit at offset 1 flips from 1 to 0. -/
theorem c2_counterexample :
    (vecSet [255] 4294967295 8 1 false 8 0 = .ok [127] ∧
      (0 : Nat) < 4294967295 * 8 + 8 ∧ bitAt [255] 0 = true ∧ bitAt [127] 0 = false) ∧
    (scalarSet 64 (2 ^ 64 - 1) 0 1 true false 0 = .ok (2 ^ 31 - 1) ∧
      get_bit 64 (2 ^ 64 - 1) 1 = .ok true ∧ get_bit 64 (2 ^ 31 - 1) 1 = .ok false) := by
  exact ⟨⟨rfl, by norm_num, rfl, rfl⟩, rfl, rfl, rfl⟩

theorem c2_non_interference_witness :
    get_bit 8 96 0 = get_bit 8 0 0 ∧ bitAt [255] 5 = bitAt [255] 5 :=
  ⟨c2_non_interference.1 8 0 1 2 false false 3 96 (by norm_num) (by simp) rfl 0
      (Or.inl (by norm_num)),
   c2_non_interference.2 [255] 0 0 1 false 8 1 [255] (by decide) (by decide) rfl 5
     (Or.inr (by norm_num))⟩

theorem pat_toSigned (w y : Nat) (hy : y < 2 ^ w) : pat w (toSigned w y) = y := by
  unfold pat toSigned
  have hylt : ((y : Nat) : Int) < ((2 ^ w : Nat) : Int) := by exact_mod_cast hy
  by_cases h : y < 2 ^ (w - 1)
  · rw [if_pos h, Int.emod_eq_of_lt (by positivity) hylt]
    exact Int.toNat_natCast y
  · rw [if_neg h]
    have he : ((y : Nat) : Int) - ((2 ^ w : Nat) : Int)
        = ((y : Nat) : Int) + (-1) * ((2 ^ w : Nat) : Int) := by ring
    rw [he, Int.add_mul_emod_self, Int.emod_eq_of_lt (by positivity) hylt]
    exact Int.toNat_natCast y

/-- C3.  Scalar extraction postcondition: for every source width
`w ∈ {8,16,32,64}` and every span with `1 ≤ len` and `off + len ≤ w`, the
same-width extraction — `(source << off)` then a right shift by `w - len`,
logical for the unsigned target and arithmetic for the signed target —
returns the `len`-bit field `(c / 2^(w-off-len)) % 2^len`, zero-extended
for the unsigned target and sign-extended (`toSigned`) for the signed one;
in particular `get(0b0000_0101, 5, 3)` is `5` unsigned and `-3` signed, and
`get(0xFF, 5, 3)` is `7` unsigned and `-1` signed. -/
theorem c3_scalar_extract (w c off len : Nat)
    (hw : w = 8 ∨ w = 16 ∨ w = 32 ∨ w = 64) (hc : c < 2 ^ w)
    (h1 : 1 ≤ len) (h2 : off + len ≤ w) :
    (scalarGetU w c off len = .ok ((c / 2 ^ (w - off - len)) % 2 ^ len) ∧
     scalarGetI w c off len = .ok (toSigned len ((c / 2 ^ (w - off - len)) % 2 ^ len))) ∧
    scalarGetU 8 5 5 3 = .ok 5 ∧ scalarGetI 8 5 5 3 = .ok (-3) ∧
    scalarGetU 8 255 5 3 = .ok 7 ∧ scalarGetI 8 255 5 3 = .ok (-1) := by
  exact ⟨⟨scalarGetU_val w c off len h1 h2, scalarGetI_val w c off len h1 h2⟩,
    rfl, rfl, rfl, rfl⟩

theorem c3_scalar_extract_witness :
    scalarGetU 8 5 5 3 = .ok ((5 / 2 ^ (8 - 5 - 3)) % 2 ^ 3) :=
  ((c3_scalar_extract 8 5 5 3 (Or.inl rfl) (by norm_num) (by norm_num)
    (by norm_num)).1).1

/-- C4 (code-bug evidence).  The buffer insert aborts instead of returning
`Err`: with `byte_offset = 2^29` on a 1-byte vector, the `u32` range check
`byte_offset*8 + bit_offset + length` wraps to `1 ≤ 8` and passes, and the
byte loop then indexes `self[2^29]`, which panics (index out of bounds)
rather than producing `Ok` or `Err`. -/
theorem c4_vec_insert_panics :
    vecSet [0] 536870912 0 1 false 8 0 = .panic := rfl

/-- C5 counterexample.  The claim as stated fails on the code: a buffer
extraction called with `bit_offset = 15 > 7` does not fail with
`OutOfRange`; it succeeds (the offset is normalized into the byte offset)
and returns the same field as the call with `byte_offset = 1`,
`bit_offset = 7`. -/
theorem c5_counterexample :
    vecGetU8 [72, 97, 108, 108, 111] 0 15 3 = .ok 5 ∧
    vecGetU8 [72, 97, 108, 108, 111] 0 15 3 ≠ .error .outOfRange := by
  refine ⟨rfl, ?_⟩
  intro h
  rw [show vecGetU8 [72, 97, 108, 108, 111] 0 15 3 = .ok 5 from rfl] at h
  exact Except.noConfusion h

/-- C5 (amended).  A `bit_offset > 7` is not rejected: every byte-sequence
operation (extraction into u8 or u16, and insertion) first normalizes
`byte_offset += bit_offset / 8; bit_offset %= 8` and behaves exactly as the
normalized call; `OutOfRange` arises only from the absolute-range and
length checks. -/
theorem c5_bit_offset_normalization (bs : List Nat) (byteOff bitOff len : Nat)
    (tsigned : Bool) (tw : Nat) (v : Int) (hno : bitOff + len < U32) :
    vecGetU8 bs byteOff bitOff len = vecGetU8 bs (byteOff + bitOff / 8) (bitOff % 8) len ∧
    vecGetU16 bs byteOff bitOff len = vecGetU16 bs (byteOff + bitOff / 8) (bitOff % 8) len ∧
    vecSet bs byteOff bitOff len tsigned tw v =
      vecSet bs (byteOff + bitOff / 8) (bitOff % 8) len tsigned tw v := by
  refine ⟨?_, ?_, ?_⟩
  · unfold vecGetU8
    rw [show (byteOff + bitOff / 8) * 8 + bitOff % 8 + len = byteOff * 8 + bitOff + len from
        by omega,
      show byteOff + bitOff / 8 + bitOff % 8 / 8 = byteOff + bitOff / 8 from by omega,
      show bitOff % 8 - bitOff % 8 / 8 * 8 = bitOff - bitOff / 8 * 8 from by omega]
  · unfold vecGetU16
    rw [show (byteOff + bitOff / 8) * 8 + bitOff % 8 + len = byteOff * 8 + bitOff + len from
        by omega,
      show byteOff + bitOff / 8 + bitOff % 8 / 8 = byteOff + bitOff / 8 from by omega,
      show bitOff % 8 - bitOff % 8 / 8 * 8 = bitOff - bitOff / 8 * 8 from by omega]
  · by_cases hlen0 : len = 0
    · subst hlen0
      rfl
    · unfold vecSet
      rw [show (byteOff + bitOff / 8) * 8 + bitOff % 8 + len = byteOff * 8 + bitOff + len from
          by omega,
        show byteOff + bitOff / 8 + bitOff % 8 / 8 = byteOff + bitOff / 8 from by omega,
        show bitOff % 8 % 8 = bitOff % 8 from by omega,
        show byteOff + bitOff / 8 + sub32 (bitOff % 8 + len) 1 / 8
            = byteOff + sub32 (bitOff + len) 1 / 8 from by
          simp only [sub32, U32] at hno ⊢
          omega]

theorem c5_bit_offset_normalization_witness :
    vecGetU8 [72, 97, 108, 108, 111] 0 15 3
      = vecGetU8 [72, 97, 108, 108, 111] (0 + 15 / 8) (15 % 8) 3 :=
  (c5_bit_offset_normalization [72, 97, 108, 108, 111] 0 15 3 false 8 0 (by decide)).1

/-- C6 counterexample.  The claim as stated fails on the code: for a
narrower target the `LengthTooBigForTargetType` check runs before the range
check, so `u16::get_u8(offset 10, length 9)` — whose `offset + length = 19`
exceeds the 16-bit source — fails with `LengthTooBigForTargetType`, not
`OutOfRange`. -/
theorem c6_counterexample :
    scalarGetUT 16 8 0 10 9 = .error .lenTooBig ∧ Err.lenTooBig ≠ Err.outOfRange :=
  ⟨rfl, by decide⟩

/-- C6 (amended).  Range rejection: for every source/target width pair in
{8,16,32,64} and either target signedness, a span with `1 ≤ len` and
`off + len > sw` is rejected; the error is `LengthTooBigForTargetType` when
the target is narrower than the source and `len` exceeds the target width
(that check runs first), and `OutOfRange` otherwise. -/
theorem c6_range_rejection (sw tw c off len : Nat)
    (hsw : sw = 8 ∨ sw = 16 ∨ sw = 32 ∨ sw = 64)
    (htw : tw = 8 ∨ tw = 16 ∨ tw = 32 ∨ tw = 64)
    (hlen : 1 ≤ len) (hover : sw < off + len) (hbound : off + len < U32) :
    scalarGetUT sw tw c off len
      = .error (if tw < sw ∧ tw < len then .lenTooBig else .outOfRange) ∧
    scalarGetIT sw tw c off len
      = .error (if tw < sw ∧ tw < len then .lenTooBig else .outOfRange) := by
  have hgu : scalarGetU sw c off len = .error .outOfRange := by
    unfold scalarGetU
    rw [if_neg (by omega), if_pos (by omega)]
  have hgi : scalarGetI sw c off len = .error .outOfRange := by
    unfold scalarGetI
    rw [if_neg (by omega), if_pos (by omega)]
  constructor
  · unfold scalarGetUT
    by_cases hn : tw < sw
    · rw [if_pos hn]
      by_cases h2 : len > tw
      · rw [if_pos h2, if_pos ⟨hn, by omega⟩]
      · rw [if_neg h2, hgu, if_neg (by omega)]
        rfl
    · rw [if_neg hn, hgu, if_neg (by omega)]
  · unfold scalarGetIT
    by_cases hn : tw < sw
    · rw [if_pos hn]
      by_cases h2 : len > tw
      · rw [if_pos h2, if_pos ⟨hn, by omega⟩]
      · rw [if_neg h2, hgi, if_neg (by omega)]
        rfl
    · rw [if_neg hn, hgi, if_neg (by omega)]

theorem c6_range_rejection_witness :
    scalarGetUT 16 8 0 10 9
      = .error (if 8 < 16 ∧ 8 < 9 then .lenTooBig else .outOfRange) :=
  (c6_range_rejection 16 8 0 10 9 (Or.inr (Or.inl rfl)) (Or.inl rfl) (by norm_num)
    (by norm_num) (by norm_num [U32])).1

/-- C7.  Cross-byte assembly: for the byte sequence
`[0x48, 0x61, 0x6C, 0x6C, 0x6F]`, buffer extraction (into u16) with
`byte_offset = 1`, `bit_offset = 7`, `length = 3` returns 5, and with
`length = 10` (spanning three bytes) returns 728. -/
theorem c7_cross_byte_assembly :
    vecGetU16 [72, 97, 108, 108, 111] 1 7 3 = .ok 5 ∧
    vecGetU16 [72, 97, 108, 108, 111] 1 7 10 = .ok 728 := ⟨rfl, rfl⟩

/-- C8.  Minimum-bit validation: the signed bit-width estimator applied to
`-5` returns 4, and for every container width in {8,16,32,64}, either
container signedness, and every otherwise-valid span of length 2,
inserting the signed value `-5` fails with a `ValueTooWide` error
recording that at least 4 bits are required (the guard returns before the
bit loop, so the slipped i64 clear path is never reached). -/
theorem c8_minimum_bit_validation (w c off : Nat) (cs : Bool)
    (hw : w = 8 ∨ w = 16 ∨ w = 32 ∨ w = 64) (hoff : off + 2 ≤ w) :
    n_required_bits_for_a_signed_int (-5) = 4 ∧
    scalarSet w c off 2 cs true (-5) = .error (.valueTooWide (-5) 2 4) := by
  refine ⟨rfl, ?_⟩
  unfold scalarSet
  dsimp only
  rw [if_neg (by omega), if_neg (by omega), if_neg (by omega), if_pos (by decide)]
  rfl

theorem c8_minimum_bit_validation_witness :
    n_required_bits_for_a_signed_int (-5) = 4 ∧
    scalarSet 64 0 0 2 true true (-5) = .error (.valueTooWide (-5) 2 4) :=
  c8_minimum_bit_validation 64 0 0 true (Or.inr (Or.inr (Or.inr rfl))) (by norm_num)

/-- C9 (code-bug evidence).  The exact formula of the claim gives
`n_required_bits_for_an_unsigned_int (2^64 - 1) = 64`, but the source
computes the logarithm through `f64`: the cast `(2^64 - 1) as f64` rounds
to nearest-even, yielding exactly `2^64` (`f64RoundNat`), whose base-2
logarithm is exactly 64.0, so the code returns `floor(64.0) + 1 = 65`,
not 64. -/
theorem c9_unsigned_estimator_f64 :
    n_required_bits_for_an_unsigned_int (2 ^ 64 - 1) = 64 ∧
    f64RoundNat (2 ^ 64 - 1) = 2 ^ 64 ∧
    natLog2 (f64RoundNat (2 ^ 64 - 1)) + 1 = 65 := ⟨rfl, rfl, rfl⟩

/-- C10.  Single-bit coherence on every integer container type: for
`bit_offset < w`, `get_bit`, `set_bit` and `clear_bit` all succeed,
`get_bit` after `set_bit` returns `true`, and `get_bit` after `clear_bit`
returns `false`; for `bit_offset ≥ w` all three fail with `OutOfRange`.
The signed impls run the mask logic on the `as`-cast pattern, modelled by
the `_i` wrappers; the signed clear uses `clearMaskS`, whose slipped
32-digit literal at width 64 clears offsets `off .. off + 32 (mod 64)` —
a set that still contains the requested offset, so the coherence property
holds of the i64 impl as well. -/
theorem c10_single_bit_coherence (w x off : Nat) (xi : Int)
    (hw : w = 8 ∨ w = 16 ∨ w = 32 ∨ w = 64) (hx : x < 2 ^ w) :
    (off < w →
      get_bit w x off = .ok (x.testBit (w - 1 - off)) ∧
      (∃ y, set_bit w x off = .ok y ∧ get_bit w y off = .ok true) ∧
      (∃ z, clear_bit w x off = .ok z ∧ get_bit w z off = .ok false) ∧
      (∃ yi, set_bit_i w xi off = .ok yi ∧ get_bit_i w yi off = .ok true) ∧
      (∃ zi, clear_bit_i w xi off = .ok zi ∧ get_bit_i w zi off = .ok false)) ∧
    (w ≤ off →
      get_bit w x off = .error .outOfRange ∧
      set_bit w x off = .error .outOfRange ∧
      clear_bit w x off = .error .outOfRange ∧
      get_bit_i w xi off = .error .outOfRange ∧
      set_bit_i w xi off = .error .outOfRange ∧
      clear_bit_i w xi off = .error .outOfRange) := by
  have hw0 : 0 < w := by rcases hw with h | h | h | h <;> omega
  constructor
  · intro hoff
    have hset : ∀ u : Nat, get_bit w (u ||| 2 ^ (w - 1 - off)) off = .ok true := by
      intro u
      rw [get_bit_eq w _ off hoff, testBit_setMask]
      simp
    have hclear : ∀ u : Nat, get_bit w (u &&& ((2 ^ w - 1) ^^^ 2 ^ (w - 1 - off))) off
        = .ok false := by
      intro u
      rw [get_bit_eq w _ off hoff, testBit_clearMask w u off _ hoff]
      simp
    refine ⟨get_bit_eq w x off hoff, ⟨_, set_bit_eq w x off hoff, hset x⟩,
      ⟨_, clear_bit_eq w x off hoff, hclear x⟩, ?_, ?_⟩
    · refine ⟨toSigned w (pat w xi ||| 2 ^ (w - 1 - off)), ?_, ?_⟩
      · unfold set_bit_i
        rw [set_bit_eq w _ off hoff]
        rfl
      · unfold get_bit_i
        rw [pat_toSigned w _ (Nat.or_lt_two_pow (pat_lt w xi)
          (Nat.pow_lt_pow_right (by norm_num) (by omega)))]
        exact hset (pat w xi)
    · have hmaskS : (rotateRight w (clearMaskS w) off).testBit (w - 1 - off) = false := by
        by_cases h64 : w = 64
        · subst h64
          unfold clearMaskS
          rw [if_pos rfl]
          exact rotate_mask32_self off hoff
        · unfold clearMaskS
          rw [if_neg h64, rotate_mask w off hoff, testBit_fullmask_xor w _ _ (by omega)]
          simp
      refine ⟨toSigned w (pat w xi &&& rotateRight w (clearMaskS w) off), ?_, ?_⟩
      · unfold clear_bit_i clear_bit_s
        rw [if_neg (by omega)]
        rfl
      · unfold get_bit_i
        rw [pat_toSigned w _ (Nat.lt_of_le_of_lt Nat.and_le_left (pat_lt w xi))]
        rw [get_bit_eq w _ off hoff, Nat.testBit_and, hmaskS, Bool.and_false]
  · intro hoff
    refine ⟨get_bit_err w x off hoff hw0, set_bit_err w x off hoff hw0,
      clear_bit_err w x off hoff hw0, get_bit_err w _ off hoff hw0, ?_, ?_⟩
    · unfold set_bit_i
      rw [set_bit_err w _ off hoff hw0]
      rfl
    · unfold clear_bit_i
      rw [clear_bit_s_err w _ off hoff hw0]
      rfl

theorem c10_single_bit_coherence_witness :
    (∃ y, set_bit 8 5 0 = .ok y ∧ get_bit 8 y 0 = .ok true) ∧
    get_bit 8 5 9 = .error .outOfRange :=
  ⟨((c10_single_bit_coherence 8 5 0 5 (Or.inl rfl) (by norm_num)).1
      (by norm_num)).2.1,
   ((c10_single_bit_coherence 8 5 9 5 (Or.inl rfl) (by norm_num)).2
      (by norm_num)).1⟩

end Bitlab
